import Mathlib

/-!
Verification of the sequence-generation decoding layer of the
JSALT19-GluonNLP notebook (09_sequence_generation).

The notebook's own code (the `GPT2Decoder` adapter, `get_initial_input_state`
and `generate`) is embedded directly.  The GluonNLP library samplers
(`SequenceSampler`, `BeamSearchSampler`) and the `BeamSearchScorer` are only
constructed and invoked by the notebook; their bodies are not part of the
repository, so they are modelled from the specification (and, for the scorer,
from the formula the notebook itself documents).

Numeric values are modelled over `ℚ`; transcendental functions (`exp`, `log`)
appearing in softmax and log-probability accumulation are passed as explicit
function parameters, keeping every definition executable.
-/

namespace SeqGen

/-- Token ids are natural numbers (indices into the vocabulary). -/
abbrev Token := ℕ

/-- Inverse-CDF multinomial draw, modelling `mx.nd.sample_multinomial`:
given a list of probability masses and a uniform draw `u`, return the least
index `v` with `u < probs[0] + ... + probs[v]`. -/
def sampleMultinomial : List ℚ → ℚ → ℕ
  | [], _ => 0
  | p :: ps, u => if u < p then 0 else sampleMultinomial ps (u - p) + 1

/-- Softmax over a list of scores, with the exponential supplied as an
explicit function parameter `e` (keeping the model executable over `ℚ`). -/
def softmax (e : ℚ → ℚ) (xs : List ℚ) : List ℚ :=
  let es := xs.map e
  es.map (fun x => x / es.sum)

/-- The wrapped language model (`decoder.net` in the notebook): maps a
`(batch, time)` token array and an optional state to a `(batch, time, V)`
output array and a new state. -/
structure Net (σ : Type) where
  run : List (List Token) → Option σ → List (List (List ℚ)) × σ

/-- `GPT2Decoder.__call__` from the notebook: expand the token batch with a
singleton time axis, run the wrapped net, slice the time axis to `[0, 1)` and
reshape each batch row to a flat vector of vocabulary scores.  All MXNet
operations used (`expand_dims`, `slice_axis`, `reshape`) return fresh arrays,
which the functional embedding reflects. -/
def GPT2Decoder.call {σ : Type} (net : Net σ) (inputs : List Token) (states : σ) :
    List (List ℚ) × σ :=
  let expanded := inputs.map (fun t => [t])
  let r := net.run expanded (some states)
  (r.1.map (fun row => (row.take 1).flatten), r.2)

/-- `get_initial_input_state` from the notebook: run the net over the prompt
ids with no initial state, take the final-position logits, divide by the
temperature, softmax, and draw the seed token by one multinomial draw whose
randomness is the uniform value `u`. -/
def get_initial_input_state {σ : Type} (net : Net σ) (e : ℚ → ℚ)
    (bos_ids : List Token) (temperature : ℚ) (u : ℚ) : Token × σ :=
  let r := net.run [bos_ids] none
  let finalLogits := (r.1.headD []).getLastD []
  let smoothed := softmax e (finalLogits.map (fun x => x / temperature))
  (sampleMultinomial smoothed u, r.2)

/-- `generate` from the notebook: obtain the seed token and initial state,
invoke the sampler, and for each of the first `num_results` samples display
the prompt ids followed by the sample truncated at its valid length with its
first token (the seed) removed, paired with the sample's score.  Printing and
detokenization are out of scope; the displayed token-id lists are returned. -/
def generate {σ : Type} (net : Net σ) (e : ℚ → ℚ) (bos_ids : List Token)
    (temperature : ℚ)
    (sampler : Token → σ → List (List Token) × List ℚ × List ℕ)
    (num_results : ℕ) (u : ℚ) : List (List Token × ℚ) :=
  let seedSt := get_initial_input_state net e bos_ids temperature u
  let r := sampler seedSt.1 seedSt.2
  (List.range num_results).map (fun i =>
    (bos_ids ++ ((r.1.getD i []).take (r.2.2.getD i 0)).drop 1, r.2.1.getD i 0))

/-- The per-beam decoder-adapter contract (spec 4.1): one token and one state
in, the logits row for that beam and a fresh state out. -/
structure Decoder (σ : Type) where
  step : Token → σ → List ℚ × σ

/-- The per-beam decoder induced by the notebook's `GPT2Decoder` on a batch
of one beam. -/
def Decoder.ofNet {σ : Type} (net : Net σ) : Decoder σ :=
  ⟨fun tok st =>
    ((GPT2Decoder.call net [tok] st).1.headD [], (GPT2Decoder.call net [tok] st).2)⟩

/-- Length penalty of the `BeamSearchScorer`, as documented in the notebook:
`length_penalty = (K + length)^alpha / (K + 1)^alpha`.  The exponent `alpha`
is modelled as a natural number (the notebook uses `alpha = 0`). -/
def length_penalty (alpha : ℕ) (Kc : ℚ) (len : ℕ) : ℚ :=
  (Kc + (len : ℚ)) ^ alpha / (Kc + 1) ^ alpha

/-- The `BeamSearchScorer` formula documented in the notebook:
`scores = (log_probs + scores) / length_penalty`.  Stateless. -/
def beamSearchScorer (alpha : ℕ) (Kc : ℚ) (score logProb : ℚ) (len : ℕ) : ℚ :=
  (logProb + score) / length_penalty alpha Kc len

/-- Modelled from the spec: one beam of the Sequence Sampler (spec 4.2).
`seq` includes the seed token at the head; `cur` is the last token (the next
decoder input); `score` the cumulative log-probability; `validLen` the step
count at which end-of-sequence was drawn (or the last step reached). -/
structure SBeam (σ : Type) where
  seq : List Token
  score : ℚ
  cur : Token
  st : σ
  finished : Bool
  validLen : ℕ
deriving DecidableEq

/-- Modelled from the spec: one step `t` of the Sequence Sampler for one
beam.  A finished beam is frozen (returned unchanged, the decoder is not
consulted).  Otherwise: get logits, divide by the temperature, softmax, draw
one token by a multinomial draw on the uniform value `u`, append it, add its
log-probability (`lg` is the abstract logarithm) to the score, and mark the
beam finished when the token is the end-of-sequence id. -/
def seqStep {σ : Type} (dec : Decoder σ) (e lg : ℚ → ℚ) (temperature : ℚ)
    (eos_id : Token) (u : ℚ) (t : ℕ) (b : SBeam σ) : SBeam σ :=
  if b.finished then b
  else
    let r := dec.step b.cur b.st
    let probs := softmax e (r.1.map (fun x => x / temperature))
    let v := sampleMultinomial probs u
    { seq := b.seq ++ [v]
      score := b.score + lg (probs.getD v 0)
      cur := v
      st := r.2
      finished := v == eos_id
      validLen := t }

/-- Modelled from the spec: the Sequence Sampler's rollout of one beam for
`t` steps; `rng n` is the uniform draw consumed at step `n`. -/
def seqRun {σ : Type} (dec : Decoder σ) (e lg : ℚ → ℚ) (temperature : ℚ)
    (eos_id : Token) (rng : ℕ → ℚ) (b : SBeam σ) : ℕ → SBeam σ
  | 0 => b
  | t + 1 => seqStep dec e lg temperature eos_id (rng (t + 1)) (t + 1)
      (seqRun dec e lg temperature eos_id rng b t)

/-- The initial beam: just the seed token, score `0`, unfinished. -/
def initSBeam {σ : Type} (seed : Token) (st : σ) : SBeam σ :=
  ⟨[seed], 0, seed, st, false, 0⟩

/-- Modelled from the spec: the Sequence Sampler (`nlp.model.SequenceSampler`,
not part of the repository).  `beam_size` independent stochastic rollouts of
the same seed token and state, each driven by its own slice `rngs i` of the
random stream, for up to `max_length` steps.  Returns (samples, scores,
valid lengths), one entry per beam, unordered. -/
def sequenceSampler {σ : Type} (dec : Decoder σ) (e lg : ℚ → ℚ)
    (beam_size : ℕ) (temperature : ℚ) (eos_id : Token) (max_length : ℕ)
    (rngs : ℕ → ℕ → ℚ) (seed : Token) (st : σ) :
    List (List Token) × List ℚ × List ℕ :=
  let beams := (List.range beam_size).map (fun i =>
    seqRun dec e lg temperature eos_id (rngs i) (initSBeam seed st) max_length)
  (beams.map SBeam.seq, beams.map SBeam.score, beams.map SBeam.validLen)

/-- Modelled from the spec: a live beam-search hypothesis (spec 4.4).
`raw` is the unnormalized cumulative log-probability, `norm` the combined
(scorer) score at the step the hypothesis was last selected. -/
structure Hyp (σ : Type) where
  seq : List Token
  cur : Token
  raw : ℚ
  norm : ℚ
  st : σ
deriving DecidableEq

/-- Modelled from the spec: an entry of the finished pool.  `finStep` is the
step at which the beam finished (used for tie-breaking). -/
structure Finished where
  seq : List Token
  score : ℚ
  validLen : ℕ
  finStep : ℕ
deriving DecidableEq

/-- Modelled from the spec: candidate continuation of a live hypothesis:
the extended sequence, the appended token, the new cumulative log-probability
and the combined score assigned by the scorer. -/
structure Cand (σ : Type) where
  seq : List Token
  tok : Token
  raw : ℚ
  cscore : ℚ
  st : σ
deriving DecidableEq

/-- Modelled from the spec: per-batch-element beam-search state: the live
set and the finished pool. -/
structure BSState (σ : Type) where
  live : List (Hyp σ)
  pool : List Finished
deriving DecidableEq

/-- Beam-search configuration (spec 6): search width, end-of-sequence id,
maximum length, and the scorer's two parameters. -/
structure BSConfig where
  beam_size : ℕ
  eos_id : Token
  max_length : ℕ
  alpha : ℕ
  Kc : ℚ
deriving DecidableEq

/-- Modelled from the spec: expand one live hypothesis at step `t` over the
full vocabulary (the width of the logits row returned by the decoder), with
each candidate's combined score computed by the scorer. -/
def expandHyp {σ : Type} (dec : Decoder σ) (alpha : ℕ) (Kc : ℚ) (t : ℕ)
    (h : Hyp σ) : List (Cand σ) :=
  let r := dec.step h.cur h.st
  r.1.enum.map (fun p =>
    { seq := h.seq ++ [p.1]
      tok := p.1
      raw := h.raw + p.2
      cscore := beamSearchScorer alpha Kc h.raw p.2 t
      st := r.2 })

/-- All candidates of one beam-search step, in candidate insertion order:
live hypotheses in order, vocabulary ids ascending within each. -/
def stepCands {σ : Type} (dec : Decoder σ) (cfg : BSConfig) (t : ℕ)
    (s : BSState σ) : List (Cand σ) :=
  s.live.flatMap (expandHyp dec cfg.alpha cfg.Kc t)

/-- Selection order on index-annotated candidates: combined score strictly
descending, ties broken by insertion index ascending (first-seen wins). -/
def candOrder {σ : Type} (a b : ℕ × Cand σ) : Prop :=
  b.2.cscore < a.2.cscore ∨ (a.2.cscore = b.2.cscore ∧ a.1 ≤ b.1)

instance {σ : Type} : DecidableRel (candOrder (σ := σ)) := fun a b =>
  inferInstanceAs (Decidable (_ ∨ _))

/-- Modelled from the spec: the top-`w` candidates by combined score
descending, ties broken by insertion order (first-seen wins). -/
def selectTop {σ : Type} (w : ℕ) (cands : List (Cand σ)) : List (Cand σ) :=
  ((cands.enum.insertionSort candOrder).take w).map Prod.snd

/-- A selected candidate becomes a live hypothesis. -/
def candToHyp {σ : Type} (c : Cand σ) : Hyp σ :=
  ⟨c.seq, c.tok, c.raw, c.cscore, c.st⟩

/-- A selected candidate whose token is end-of-sequence enters the finished
pool: its score and sequence are frozen and its valid length is the step
count at that point. -/
def candToFin {σ : Type} (t : ℕ) (c : Cand σ) : Finished :=
  ⟨c.seq, c.cscore, t, t⟩

/-- Modelled from the spec: one beam-search step `t`.  If no beam is live
the state is unchanged.  Otherwise all live hypotheses are expanded over the
vocabulary, the top `beam_size - |pool|` candidates are selected (the live
width is not backfilled when beams finish early — the policy the spec
states), selected candidates ending in the end-of-sequence id move to the
finished pool, and the remaining selected candidates become the new live
set, replacing the previous one entirely. -/
def beamStep {σ : Type} (dec : Decoder σ) (cfg : BSConfig) (t : ℕ)
    (s : BSState σ) : BSState σ :=
  if s.live.isEmpty then s
  else
    let sel := selectTop (cfg.beam_size - s.pool.length) (stepCands dec cfg t s)
    { live := (sel.filter (fun c => !(c.tok == cfg.eos_id))).map candToHyp
      pool := s.pool ++ (sel.filter (fun c => c.tok == cfg.eos_id)).map (candToFin t) }

/-- Modelled from the spec: run `t` beam-search steps. -/
def beamRun {σ : Type} (dec : Decoder σ) (cfg : BSConfig) (s : BSState σ) :
    ℕ → BSState σ
  | 0 => s
  | t + 1 => beamStep dec cfg (t + 1) (beamRun dec cfg s t)

/-- The initial beam-search state: one hypothesis holding the seed token and
state, score `0`, and an empty finished pool. -/
def beamInit {σ : Type} (seed : Token) (st : σ) : BSState σ :=
  ⟨[⟨[seed], seed, 0, 0, st⟩], []⟩

/-- Modelled from the spec: on reaching the maximum length, remaining live
beams are force-finished with valid length `max_length`. -/
def forceFinish {σ : Type} (L : ℕ) (s : BSState σ) : List Finished :=
  s.pool ++ s.live.map (fun h => ⟨h.seq, h.norm, L, L⟩)

/-- Result order (spec 4.4): score descending, ties won by the
earlier-finished beam. -/
def finOrder (a b : Finished) : Prop :=
  b.score < a.score ∨ (a.score = b.score ∧ a.finStep ≤ b.finStep)

instance : DecidableRel finOrder := fun a b =>
  inferInstanceAs (Decidable (_ ∨ _))

/-- Modelled from the spec: the Beam Search Sampler's result list for one
batch element: run `max_length` steps from the seed, force-finish the
remaining live beams, and order the finished pool by score descending with
ties won by the earlier-finished beam. -/
def beamSearchResults {σ : Type} (dec : Decoder σ) (cfg : BSConfig)
    (seed : Token) (st : σ) : List Finished :=
  List.insertionSort finOrder
    (forceFinish cfg.max_length (beamRun dec cfg (beamInit seed st) cfg.max_length))

/-- Modelled from the spec: the Beam Search Sampler
(`nlp.model.BeamSearchSampler`, not part of the repository).  For the common
sampler signature it receives the same random stream interface as the
Sequence Sampler, but beam search has no sampling step and never consults
it. -/
def beamSearchSampler {σ : Type} (rngs : ℕ → ℕ → ℚ) (dec : Decoder σ)
    (cfg : BSConfig) (seed : Token) (st : σ) :
    List (List Token) × List ℚ × List ℕ :=
  let fs := beamSearchResults dec cfg seed st
  (fs.map Finished.seq, fs.map Finished.score, fs.map Finished.validLen)

/-- C1: for every vector of cumulative scores and matrix of next-step
log-probabilities, the Beam Search Scorer returns candidate scores equal to
`(scores[k] + log_probs[k][v]) / length_penalty(length)` with
`length_penalty(length) = (K_const + length)^alpha / (K_const + 1)^alpha`,
and with `alpha = 0` the output is exactly `scores[k] + log_probs[k][v]`,
for all inputs. -/
theorem beamSearchScorer_formula (scores : ℕ → ℚ) (logProbs : ℕ → ℕ → ℚ)
    (alpha : ℕ) (Kc : ℚ) (k v len : ℕ) :
    beamSearchScorer alpha Kc (scores k) (logProbs k v) len
        = (scores k + logProbs k v) / length_penalty alpha Kc len
      ∧ length_penalty alpha Kc len = (Kc + (len : ℚ)) ^ alpha / (Kc + 1) ^ alpha
      ∧ beamSearchScorer 0 Kc (scores k) (logProbs k v) len
        = scores k + logProbs k v := by
  refine ⟨?_, rfl, ?_⟩
  · unfold beamSearchScorer
    rw [add_comm]
  · unfold beamSearchScorer length_penalty
    simp [add_comm]

/-- C2: the Beam Search Sampler, given identical inputs, model and scorer,
produces identical (samples, scores, valid_lengths) outputs no matter what
the ambient random stream holds: its search path contains no source of
randomness. -/
theorem beamSearchSampler_deterministic {σ : Type} (rngs₁ rngs₂ : ℕ → ℕ → ℚ)
    (dec : Decoder σ) (cfg : BSConfig) (seed : Token) (st : σ) :
    beamSearchSampler rngs₁ dec cfg seed st
      = beamSearchSampler rngs₂ dec cfg seed st := rfl

/-- The valid length recorded by a Sequence Sampler rollout never exceeds
the larger of its starting value and the number of steps taken. -/
theorem seqRun_validLen_le {σ : Type} (dec : Decoder σ) (e lg : ℚ → ℚ)
    (temperature : ℚ) (eos_id : Token) (rng : ℕ → ℚ) (b : SBeam σ) :
    ∀ t, (seqRun dec e lg temperature eos_id rng b t).validLen ≤ max b.validLen t
  | 0 => le_max_left _ _
  | t + 1 => by
    have ih := seqRun_validLen_le dec e lg temperature eos_id rng b t
    unfold seqRun seqStep
    by_cases h : (seqRun dec e lg temperature eos_id rng b t).finished
    · simp only [h, if_true]
      exact ih.trans (max_le_max le_rfl (Nat.le_succ t))
    · simp only [h, if_false]
      exact le_max_right _ _

/-- C5: for every valid configuration (`beam_size ≥ 1`, `temperature > 0`,
`max_length ≥ 1`) and every input, the Sequence Sampler returns exactly
`beam_size` samples, scores and valid lengths, and every returned valid
length is at most `max_length`. -/
theorem sequenceSampler_shape {σ : Type} (dec : Decoder σ) (e lg : ℚ → ℚ)
    (beam_size : ℕ) (temperature : ℚ) (eos_id : Token) (max_length : ℕ)
    (rngs : ℕ → ℕ → ℚ) (seed : Token) (st : σ)
    (hB : 1 ≤ beam_size) (hT : 0 < temperature) (hL : 1 ≤ max_length) :
    (sequenceSampler dec e lg beam_size temperature eos_id max_length rngs seed st).1.length
        = beam_size
      ∧ (sequenceSampler dec e lg beam_size temperature eos_id max_length rngs seed st).2.1.length
        = beam_size
      ∧ (sequenceSampler dec e lg beam_size temperature eos_id max_length rngs seed st).2.2.length
        = beam_size
      ∧ ∀ v ∈ (sequenceSampler dec e lg beam_size temperature eos_id max_length rngs seed st).2.2,
          v ≤ max_length := by
  refine ⟨by simp [sequenceSampler], by simp [sequenceSampler], by simp [sequenceSampler], ?_⟩
  intro v hv
  simp only [sequenceSampler, List.map_map, List.mem_map, List.mem_range] at hv
  obtain ⟨i, _, hi⟩ := hv
  have h := seqRun_validLen_le dec e lg temperature eos_id (rngs i)
    (initSBeam seed st) max_length
  simpa [initSBeam, ← hi] using h

/-- A concrete decoder over state `ℕ` used by closed witnesses. -/
def witDec : Decoder ℕ := ⟨fun _ _ => ([1, 0], 0)⟩

/-- Witness for C5 at a concrete valid configuration. -/
theorem sequenceSampler_shape_witness :
    (sequenceSampler witDec id id 2 1 0 3 (fun _ _ => 0) 5 0).1.length = 2
      ∧ (sequenceSampler witDec id id 2 1 0 3 (fun _ _ => 0) 5 0).2.1.length = 2
      ∧ (sequenceSampler witDec id id 2 1 0 3 (fun _ _ => 0) 5 0).2.2.length = 2
      ∧ ∀ v ∈ (sequenceSampler witDec id id 2 1 0 3 (fun _ _ => 0) 5 0).2.2,
          v ≤ 3 :=
  sequenceSampler_shape witDec id id 2 1 0 3 (fun _ _ => 0) 5 0
    (by norm_num) (by norm_num) (by norm_num)

/-- A concrete wrapped model used to exhibit the missing temperature
validation: constant output logits `[1, 2]` for a single-token prompt. -/
def c7net : Net ℕ := ⟨fun _ _ => ([[[1, 2]]], 0)⟩

/-- C7: the notebook's `get_initial_input_state` performs no validation of
the temperature.  With `temperature = 0` the logits are divided by zero and
a seed token is still returned (here the out-of-range fallback index of the
degenerate all-zero mass list, mirroring the silent `inf`/`nan` flow of the
float code), and with `temperature = -1` a token is silently sampled from
the negated distribution.  No failure is reported before decoding. -/
theorem get_initial_input_state_no_temperature_check :
    get_initial_input_state c7net id [0] 0 0 = (2, 0)
      ∧ get_initial_input_state c7net id [0] (-1) 0 = (0, 0) := by
  constructor <;>
    norm_num [get_initial_input_state, c7net, softmax, sampleMultinomial]

/-- C8: the notebook's `GPT2Decoder.__call__` is a pure pass-through
reshaping layer: whenever the wrapped net emits one time step per beam (it
is fed exactly one), the returned logits are the net's output narrowed to
the final time step reshaped to one flat row of vocabulary scores per beam,
and the returned state is exactly the net's fresh state.  The input state is
untouched: every operation used is functional. -/
theorem gpt2_decoder_call_passthrough {σ : Type} (net : Net σ)
    (inputs : List Token) (states : σ)
    (h1 : ∀ row ∈ (net.run (inputs.map fun tk => [tk]) (some states)).1,
            row.length = 1) :
    (GPT2Decoder.call net inputs states).1
        = (net.run (inputs.map fun tk => [tk]) (some states)).1.map
            (fun row => row.getLastD [])
      ∧ (GPT2Decoder.call net inputs states).2
        = (net.run (inputs.map fun tk => [tk]) (some states)).2
      ∧ ((net.run (inputs.map fun tk => [tk]) (some states)).1.length
            = inputs.length →
          (GPT2Decoder.call net inputs states).1.length = inputs.length) := by
  refine ⟨?_, rfl, ?_⟩
  · unfold GPT2Decoder.call
    refine List.map_eq_map_iff.mpr ?_
    intro row hrow
    obtain ⟨a, rfl⟩ := List.length_eq_one.mp (h1 row hrow)
    simp
  · intro h
    unfold GPT2Decoder.call
    simpa using h

/-- A concrete wrapped model for the C8 witness: one beam, one time step,
two vocabulary entries. -/
def c8net : Net ℕ := ⟨fun _ _ => ([[[3, 4]]], 7)⟩

/-- Witness for C8 at a concrete net emitting one time step per beam. -/
theorem gpt2_decoder_call_passthrough_witness :
    (GPT2Decoder.call c8net [5] 0).1
        = (c8net.run ([5].map fun tk => [tk]) (some 0)).1.map
            (fun row => row.getLastD [])
      ∧ (GPT2Decoder.call c8net [5] 0).2
        = (c8net.run ([5].map fun tk => [tk]) (some 0)).2
      ∧ ((c8net.run ([5].map fun tk => [tk]) (some 0)).1.length = [5].length →
          (GPT2Decoder.call c8net [5] 0).1.length = [5].length) :=
  gpt2_decoder_call_passthrough c8net [5] 0 (by decide)

/-- A concrete wrapped model whose next-token logits depend on the current
token: token `0` favours continuing with `0`, any other token favours `1`. -/
def c9net : Net ℕ :=
  ⟨fun tb _ =>
    (tb.map (fun row => row.map (fun tk => if tk = 0 then [10, 0] else [0, 10])), 0)⟩

/-- The abstract exponential used in the C9 instance: constant mass `1`,
giving the uniform softmax distribution. -/
def c9e : ℚ → ℚ := fun _ => 1

/-- Beam-search configuration for the C9 instance: width 1, end-of-sequence
id 3 (never produced), maximum length 2, no length normalization. -/
def c9cfg : BSConfig := ⟨1, 3, 2, 0, 5⟩

/-- The deterministic Beam Search Sampler instance handed to `generate` in
the C9 instance. -/
def c9sampler : Token → ℕ → List (List Token) × List ℚ × List ℕ :=
  fun seed st => beamSearchSampler (fun _ _ => 0) (Decoder.ofNet c9net) c9cfg seed st

/-- C9: the seed token fed to either sampler is itself stochastic:
`get_initial_input_state` draws it by one multinomial draw from the
temperature-scaled softmax of the prompt's final-position logits (first
conjunct, for every wrapped model and uniform value), and two runs of
`generate` differing only in that uniform value produce different outputs
even though the downstream sampler is the deterministic Beam Search Sampler
(second conjunct, at a concrete instance). -/
theorem seed_token_sampled_stochastically :
    (∀ (σ : Type) (net : Net σ) (e : ℚ → ℚ) (bos_ids : List Token)
        (temperature u : ℚ),
      get_initial_input_state net e bos_ids temperature u
        = (sampleMultinomial
            (softmax e ((((net.run [bos_ids] none).1.headD []).getLastD []).map
              (fun x => x / temperature))) u,
           (net.run [bos_ids] none).2))
      ∧ generate c9net c9e [0] 1 c9sampler 1 0
          ≠ generate c9net c9e [0] 1 c9sampler 1 (1 / 2) := by
  refine ⟨fun _ _ _ _ _ _ => rfl, ?_⟩
  norm_num [generate, get_initial_input_state, c9net, c9e, c9sampler, c9cfg,
    softmax, sampleMultinomial, beamSearchSampler, beamSearchResults, beamRun,
    beamStep, beamInit, stepCands, expandHyp, selectTop, forceFinish,
    Decoder.ofNet, GPT2Decoder.call, beamSearchScorer, length_penalty,
    List.insertionSort, List.orderedInsert, candOrder, finOrder, candToHyp,
    candToFin, List.enum, List.enumFrom]

/-- Appending to a list with a known head keeps that head. -/
theorem head?_append_single {α : Type} {l : List α} {a v : α}
    (h : l.head? = some a) : (l ++ [v]).head? = some a := by
  cases l with
  | nil => simp at h
  | cons x xs => simpa using h

/-- Dropping the head commutes with appending one element to a nonempty
list. -/
theorem drop_one_append_single {α : Type} {l : List α} {a v : α}
    (h : l.head? = some a) : (l ++ [v]).drop 1 = l.drop 1 ++ [v] := by
  cases l with
  | nil => simp at h
  | cons x xs => simp

/-- The selection keeps `min w` of the available candidates. -/
theorem selectTop_length {σ : Type} (w : ℕ) (cands : List (Cand σ)) :
    (selectTop w cands).length = min w cands.length := by
  simp [selectTop, List.length_take, List.length_insertionSort, List.enum_length]

/-- Every selected candidate is one of the offered candidates. -/
theorem mem_selectTop {σ : Type} {w : ℕ} {cands : List (Cand σ)} {c : Cand σ}
    (h : c ∈ selectTop w cands) : c ∈ cands := by
  simp only [selectTop, List.mem_map] at h
  obtain ⟨p, hp, rfl⟩ := h
  have h2 : p ∈ cands.enum := by
    simpa using List.mem_of_mem_take hp
  exact List.snd_mem_of_mem_enum h2

/-- Expanding one hypothesis yields one candidate per logits entry. -/
theorem length_expandHyp {σ : Type} (dec : Decoder σ) (alpha : ℕ) (Kc : ℚ)
    (t : ℕ) (h : Hyp σ) :
    (expandHyp dec alpha Kc t h).length = (dec.step h.cur h.st).1.length := by
  simp [expandHyp, List.enum_length]

/-- Structure of a candidate: it extends some live hypothesis by one token,
with cumulative log-probability accumulated and combined score assigned by
the scorer. -/
theorem mem_stepCands {σ : Type} {dec : Decoder σ} {cfg : BSConfig} {t : ℕ}
    {s : BSState σ} {c : Cand σ} (h : c ∈ stepCands dec cfg t s) :
    ∃ hp ∈ s.live, ∃ p ∈ (dec.step hp.cur hp.st).1.enum,
      c.seq = hp.seq ++ [p.1] ∧ c.tok = p.1 ∧ c.raw = hp.raw + p.2
        ∧ c.cscore = beamSearchScorer cfg.alpha cfg.Kc hp.raw p.2 t
        ∧ c.st = (dec.step hp.cur hp.st).2 := by
  obtain ⟨hp, hhp, hc⟩ := List.exists_of_mem_flatMap h
  simp only [expandHyp, List.mem_map] at hc
  obtain ⟨p, hpm, rfl⟩ := hc
  exact ⟨hp, hhp, p, hpm, rfl, rfl, rfl, rfl, rfl⟩

/-- A step on an empty live set changes nothing. -/
theorem beamStep_of_empty {σ : Type} (dec : Decoder σ) (cfg : BSConfig) (t : ℕ)
    (s : BSState σ) (h : s.live = []) : beamStep dec cfg t s = s := by
  simp [beamStep, h]

/-- A step on a nonempty live set: the top `beam_size - |pool|` candidates
are selected; those emitting the end-of-sequence id join the pool and the
rest become the new live set. -/
theorem beamStep_of_ne {σ : Type} (dec : Decoder σ) (cfg : BSConfig) (t : ℕ)
    (s : BSState σ) (hne : s.live ≠ []) :
    beamStep dec cfg t s =
      ⟨((selectTop (cfg.beam_size - s.pool.length) (stepCands dec cfg t s)).filter
          (fun c => !(c.tok == cfg.eos_id))).map candToHyp,
       s.pool ++ ((selectTop (cfg.beam_size - s.pool.length) (stepCands dec cfg t s)).filter
          (fun c => c.tok == cfg.eos_id)).map (candToFin t)⟩ := by
  simp [beamStep, List.isEmpty_eq_false.mpr hne]

/-- One step preserves the bound `|live| + |pool| ≤ beam_size`. -/
theorem beamStep_size {σ : Type} (dec : Decoder σ) (cfg : BSConfig) (t : ℕ)
    (s : BSState σ)
    (hs : s.live.length + s.pool.length ≤ cfg.beam_size) :
    (beamStep dec cfg t s).live.length + (beamStep dec cfg t s).pool.length
      ≤ cfg.beam_size := by
  by_cases hne : s.live = []
  · rw [beamStep_of_empty dec cfg t s hne]; exact hs
  · rw [beamStep_of_ne dec cfg t s hne]
    simp only [List.length_map, List.length_append]
    have h1 := List.length_eq_length_filter_add
      (l := selectTop (cfg.beam_size - s.pool.length) (stepCands dec cfg t s))
      (fun c => c.tok == cfg.eos_id)
    have h2 : (selectTop (cfg.beam_size - s.pool.length)
        (stepCands dec cfg t s)).length ≤ cfg.beam_size - s.pool.length := by
      rw [selectTop_length]; exact min_le_left _ _
    omega

/-- The bound `|live| + |pool| ≤ beam_size` holds along the whole run. -/
theorem beamRun_size {σ : Type} (dec : Decoder σ) (cfg : BSConfig)
    (s0 : BSState σ)
    (hs : s0.live.length + s0.pool.length ≤ cfg.beam_size) :
    ∀ t, (beamRun dec cfg s0 t).live.length + (beamRun dec cfg s0 t).pool.length
      ≤ cfg.beam_size
  | 0 => hs
  | t + 1 => beamStep_size dec cfg (t + 1) _ (beamRun_size dec cfg s0 hs t)

/-- One step only appends to the pool, and each appended entry is a frozen
copy of a selected candidate that emitted the end-of-sequence id. -/
theorem beamStep_pool_mono {σ : Type} (dec : Decoder σ) (cfg : BSConfig)
    (t : ℕ) (s : BSState σ) :
    ∃ ext, (beamStep dec cfg t s).pool = s.pool ++ ext
      ∧ ∀ f ∈ ext, ∃ c ∈ stepCands dec cfg t s,
          c.tok = cfg.eos_id ∧ f = candToFin t c := by
  by_cases hne : s.live = []
  · exact ⟨[], by rw [beamStep_of_empty dec cfg t s hne]; simp, by simp⟩
  · refine ⟨_, by rw [beamStep_of_ne dec cfg t s hne], ?_⟩
    intro f hf
    simp only [List.mem_map, List.mem_filter] at hf
    obtain ⟨c, ⟨hcsel, hceq⟩, rfl⟩ := hf
    exact ⟨c, mem_selectTop hcsel, by simpa using hceq, rfl⟩

/-- The pool contents at any step persist, unchanged and in order, at every
later step. -/
theorem beamRun_pool_ext {σ : Type} (dec : Decoder σ) (cfg : BSConfig)
    (s0 : BSState σ) (t : ℕ) :
    ∀ u, t ≤ u →
      ∃ ext, (beamRun dec cfg s0 u).pool = (beamRun dec cfg s0 t).pool ++ ext := by
  intro u hu
  induction u, hu using Nat.le_induction with
  | base => exact ⟨[], by simp⟩
  | succ n hn ih =>
    obtain ⟨e1, he1⟩ := ih
    obtain ⟨e2, he2, _⟩ := beamStep_pool_mono dec cfg (n + 1) (beamRun dec cfg s0 n)
    refine ⟨e1 ++ e2, ?_⟩
    show (beamStep dec cfg (n + 1) (beamRun dec cfg s0 n)).pool = _
    rw [he2, he1, List.append_assoc]

/-- Run invariant from the initial single-seed state: every pool entry has
its valid length equal to the step it finished, bounded by the steps taken,
and starts with the seed token; every live hypothesis starts with the seed
token, has never emitted the end-of-sequence id, and (after the first step)
does not currently hold it. -/
theorem beamRun_inv {σ : Type} (dec : Decoder σ) (cfg : BSConfig)
    (seed : Token) (st : σ) :
    ∀ t,
      (∀ f ∈ (beamRun dec cfg (beamInit seed st) t).pool,
        f.validLen = f.finStep ∧ 1 ≤ f.finStep ∧ f.finStep ≤ t
          ∧ f.seq.head? = some seed)
      ∧ (∀ h ∈ (beamRun dec cfg (beamInit seed st) t).live,
        h.seq.head? = some seed ∧ cfg.eos_id ∉ h.seq.drop 1
          ∧ (1 ≤ t → h.cur ≠ cfg.eos_id))
  | 0 => by
    constructor
    · intro f hf
      simp [beamRun, beamInit] at hf
    · intro h hh
      simp only [beamRun, beamInit, List.mem_singleton] at hh
      subst hh
      exact ⟨rfl, by simp, by omega⟩
  | t + 1 => by
    have ih := beamRun_inv dec cfg seed st t
    show (∀ f ∈ (beamStep dec cfg (t + 1) (beamRun dec cfg (beamInit seed st) t)).pool, _)
      ∧ (∀ h ∈ (beamStep dec cfg (t + 1) (beamRun dec cfg (beamInit seed st) t)).live, _)
    by_cases hne : (beamRun dec cfg (beamInit seed st) t).live = []
    · rw [beamStep_of_empty dec cfg (t + 1) _ hne]
      constructor
      · intro f hf
        obtain ⟨h1, h2, h3, h4⟩ := ih.1 f hf
        exact ⟨h1, h2, h3.trans (Nat.le_succ t), h4⟩
      · intro h hh
        rw [hne] at hh
        simp at hh
    · rw [beamStep_of_ne dec cfg (t + 1) _ hne]
      constructor
      · intro f hf
        simp only [List.mem_append, List.mem_map, List.mem_filter] at hf
        rcases hf with hf | ⟨c, ⟨hcsel, hceq⟩, rfl⟩
        · obtain ⟨h1, h2, h3, h4⟩ := ih.1 f hf
          exact ⟨h1, h2, h3.trans (Nat.le_succ t), h4⟩
        · obtain ⟨hp, hhp, p, hpm, hseq, htok, hraw, hcs, hst⟩ :=
            mem_stepCands (mem_selectTop hcsel)
          have hh := ih.2 hp hhp
          refine ⟨rfl, ?_, ?_, ?_⟩
          · show 1 ≤ t + 1
            omega
          · show t + 1 ≤ t + 1
            omega
          show c.seq.head? = some seed
          rw [hseq]
          exact head?_append_single hh.1
      · intro h hh
        simp only [List.mem_map, List.mem_filter] at hh
        obtain ⟨c, ⟨hcsel, hcne⟩, rfl⟩ := hh
        obtain ⟨hp, hhp, p, hpm, hseq, htok, hraw, hcs, hst⟩ :=
          mem_stepCands (mem_selectTop hcsel)
        have ihh := ih.2 hp hhp
        have htokne : c.tok ≠ cfg.eos_id := by simpa using hcne
        refine ⟨?_, ?_, ?_⟩
        · show c.seq.head? = some seed
          rw [hseq]
          exact head?_append_single ihh.1
        · show cfg.eos_id ∉ c.seq.drop 1
          rw [hseq, drop_one_append_single ihh.1]
          intro hmem
          rcases List.mem_append.mp hmem with hm | hm
          · exact ihh.2.1 hm
          · simp only [List.mem_singleton] at hm
            exact htokne (htok.trans hm.symm)
        · intro _
          show c.tok ≠ cfg.eos_id
          exact htokne

instance : IsTotal Finished finOrder :=
  ⟨fun a b => by
    unfold finOrder
    rcases lt_trichotomy a.score b.score with h | h | h
    · exact Or.inr (Or.inl h)
    · rcases le_total a.finStep b.finStep with h2 | h2
      · exact Or.inl (Or.inr ⟨h, h2⟩)
      · exact Or.inr (Or.inr ⟨h.symm, h2⟩)
    · exact Or.inl (Or.inl h)⟩

instance : IsTrans Finished finOrder :=
  ⟨fun a b c hab hbc => by
    unfold finOrder at *
    rcases hab with h1 | ⟨e1, l1⟩ <;> rcases hbc with h2 | ⟨e2, l2⟩
    · exact Or.inl (h2.trans h1)
    · exact Or.inl (by rw [← e2]; exact h1)
    · exact Or.inl (by rw [e1]; exact h2)
    · exact Or.inr ⟨e1.trans e2, l1.trans l2⟩⟩

/-- C3: for every valid configuration and input, the Beam Search Sampler
returns at most `beam_size` result tuples per batch element, every returned
valid length is at most `max_length`, and the result list is sorted by score
descending with ties won by the earlier-finished beam. -/
theorem beamSearchSampler_shape {σ : Type} (rngs : ℕ → ℕ → ℚ)
    (dec : Decoder σ) (cfg : BSConfig) (seed : Token) (st : σ)
    (hK : 1 ≤ cfg.beam_size) (hL : 1 ≤ cfg.max_length) :
    (beamSearchSampler rngs dec cfg seed st).1.length ≤ cfg.beam_size
      ∧ (∀ v ∈ (beamSearchSampler rngs dec cfg seed st).2.2, v ≤ cfg.max_length)
      ∧ List.Sorted finOrder (beamSearchResults dec cfg seed st) := by
  refine ⟨?_, ?_, List.sorted_insertionSort finOrder _⟩
  · have hsz := beamRun_size dec cfg (beamInit seed st)
      (by simpa [beamInit] using hK) cfg.max_length
    simp only [beamSearchSampler, List.length_map, beamSearchResults,
      List.length_insertionSort, forceFinish, List.length_append]
    omega
  · intro v hv
    simp only [beamSearchSampler, List.mem_map, beamSearchResults] at hv
    obtain ⟨f, hf, rfl⟩ := hv
    have hf2 : f ∈ forceFinish cfg.max_length
        (beamRun dec cfg (beamInit seed st) cfg.max_length) := by
      simpa using hf
    simp only [forceFinish, List.mem_append, List.mem_map] at hf2
    rcases hf2 with hp | ⟨h, _, rfl⟩
    · obtain ⟨h1, _, h3, _⟩ :=
        (beamRun_inv dec cfg seed st cfg.max_length).1 f hp
      omega
    · exact le_refl _

/-- Witness for C3 at a concrete valid configuration. -/
theorem beamSearchSampler_shape_witness :
    (beamSearchSampler (fun _ _ => 0) witDec ⟨2, 0, 3, 0, 5⟩ 5 0).1.length ≤
        BSConfig.beam_size ⟨2, 0, 3, 0, 5⟩
      ∧ (∀ v ∈ (beamSearchSampler (fun _ _ => 0) witDec ⟨2, 0, 3, 0, 5⟩ 5 0).2.2,
          v ≤ BSConfig.max_length ⟨2, 0, 3, 0, 5⟩)
      ∧ List.Sorted finOrder (beamSearchResults witDec ⟨2, 0, 3, 0, 5⟩ 5 0) :=
  beamSearchSampler_shape (fun _ _ => 0) witDec ⟨2, 0, 3, 0, 5⟩ 5 0
    (by decide) (by decide)

/-- A finished Sequence Sampler beam is frozen by a step: it is returned
unchanged, whatever the decoder, random value or step count. -/
theorem seqStep_frozen {σ : Type} (dec : Decoder σ) (e lg : ℚ → ℚ)
    (temperature : ℚ) (eos_id : Token) (u : ℚ) (t : ℕ) (b : SBeam σ)
    (h : b.finished = true) :
    seqStep dec e lg temperature eos_id u t b = b := by
  simp [seqStep, h]

/-- Once a Sequence Sampler beam is finished, running any number of further
steps leaves it untouched. -/
theorem seqRun_frozen {σ : Type} (dec : Decoder σ) (e lg : ℚ → ℚ)
    (temperature : ℚ) (eos_id : Token) (rng : ℕ → ℚ) (b : SBeam σ) (t : ℕ)
    (hf : (seqRun dec e lg temperature eos_id rng b t).finished = true) :
    ∀ u, t ≤ u →
      seqRun dec e lg temperature eos_id rng b u
        = seqRun dec e lg temperature eos_id rng b t := by
  intro u hu
  induction u, hu using Nat.le_induction with
  | base => rfl
  | succ n hn ih =>
    show seqStep dec e lg temperature eos_id (rng (n + 1)) (n + 1)
        (seqRun dec e lg temperature eos_id rng b n) = _
    rw [ih, seqStep_frozen dec e lg temperature eos_id (rng (n + 1)) (n + 1) _ hf]

/-- A Sequence Sampler rollout preserves the first token of the sequence. -/
theorem seqRun_head {σ : Type} (dec : Decoder σ) (e lg : ℚ → ℚ)
    (temperature : ℚ) (eos_id : Token) (rng : ℕ → ℚ) (b : SBeam σ)
    (a : Token) (hb : b.seq.head? = some a) :
    ∀ t, (seqRun dec e lg temperature eos_id rng b t).seq.head? = some a
  | 0 => hb
  | t + 1 => by
    have ih := seqRun_head dec e lg temperature eos_id rng b a hb t
    show (seqStep dec e lg temperature eos_id (rng (t + 1)) (t + 1)
        (seqRun dec e lg temperature eos_id rng b t)).seq.head? = some a
    unfold seqStep
    by_cases h : (seqRun dec e lg temperature eos_id rng b t).finished
    · simpa [h] using ih
    · simp only [h, if_false]
      exact head?_append_single ih

/-- C4: in both samplers, a beam that emits the end-of-sequence id at step
`t` is frozen.  Beam search: the pool only ever grows (every finished entry
persists unchanged, in place, at every later step), each pool entry's valid
length equals the step at which it emitted end-of-sequence, and the live
hypotheses — the only ones ever handed to the decoder — have never emitted
it.  Sequence sampler: once a beam is finished, every further step returns
it unchanged without consulting the decoder, and a beam drawing
end-of-sequence at step `t' + 1` records exactly that valid length. -/
theorem finished_beams_frozen {σ : Type} (dec : Decoder σ) (cfg : BSConfig)
    (seed : Token) (st : σ) (e lg : ℚ → ℚ) (temperature : ℚ) (eos_id : Token)
    (rng : ℕ → ℚ) (b : SBeam σ) (t u : ℕ) (htu : t ≤ u) :
    (∃ ext, (beamRun dec cfg (beamInit seed st) u).pool
        = (beamRun dec cfg (beamInit seed st) t).pool ++ ext)
      ∧ (∀ f ∈ (beamRun dec cfg (beamInit seed st) t).pool,
          f.validLen = f.finStep ∧ 1 ≤ f.finStep ∧ f.finStep ≤ t)
      ∧ (∀ h ∈ (beamRun dec cfg (beamInit seed st) t).live,
          cfg.eos_id ∉ h.seq.drop 1 ∧ (1 ≤ t → h.cur ≠ cfg.eos_id))
      ∧ ((seqRun dec e lg temperature eos_id rng b t).finished = true →
          seqRun dec e lg temperature eos_id rng b u
            = seqRun dec e lg temperature eos_id rng b t)
      ∧ (∀ t', (seqRun dec e lg temperature eos_id rng b t').finished = false →
          (seqRun dec e lg temperature eos_id rng b (t' + 1)).finished = true →
          (seqRun dec e lg temperature eos_id rng b (t' + 1)).validLen = t' + 1) := by
  refine ⟨beamRun_pool_ext dec cfg (beamInit seed st) t u htu, ?_, ?_, ?_, ?_⟩
  · intro f hf
    obtain ⟨h1, h2, h3, _⟩ := (beamRun_inv dec cfg seed st t).1 f hf
    exact ⟨h1, h2, h3⟩
  · intro h hh
    obtain ⟨_, h2, h3⟩ := (beamRun_inv dec cfg seed st t).2 h hh
    exact ⟨h2, h3⟩
  · intro hf
    exact seqRun_frozen dec e lg temperature eos_id rng b t hf u htu
  · intro t' h0 _
    show (seqStep dec e lg temperature eos_id (rng (t' + 1)) (t' + 1)
        (seqRun dec e lg temperature eos_id rng b t')).validLen = t' + 1
    simp [seqStep, h0]

/-- Witness for C4 at concrete inputs. -/
theorem finished_beams_frozen_witness :
    (∃ ext, (beamRun witDec ⟨2, 0, 3, 0, 5⟩ (beamInit 5 0) 2).pool
        = (beamRun witDec ⟨2, 0, 3, 0, 5⟩ (beamInit 5 0) 1).pool ++ ext)
      ∧ (∀ f ∈ (beamRun witDec ⟨2, 0, 3, 0, 5⟩ (beamInit 5 0) 1).pool,
          f.validLen = f.finStep ∧ 1 ≤ f.finStep ∧ f.finStep ≤ 1)
      ∧ (∀ h ∈ (beamRun witDec ⟨2, 0, 3, 0, 5⟩ (beamInit 5 0) 1).live,
          BSConfig.eos_id ⟨2, 0, 3, 0, 5⟩ ∉ h.seq.drop 1
            ∧ (1 ≤ 1 → h.cur ≠ BSConfig.eos_id ⟨2, 0, 3, 0, 5⟩))
      ∧ ((seqRun witDec id id 1 0 (fun _ => 0) (initSBeam 5 0) 1).finished = true →
          seqRun witDec id id 1 0 (fun _ => 0) (initSBeam 5 0) 2
            = seqRun witDec id id 1 0 (fun _ => 0) (initSBeam 5 0) 1)
      ∧ (∀ t', (seqRun witDec id id 1 0 (fun _ => 0) (initSBeam 5 0) t').finished = false →
          (seqRun witDec id id 1 0 (fun _ => 0) (initSBeam 5 0) (t' + 1)).finished = true →
          (seqRun witDec id id 1 0 (fun _ => 0) (initSBeam 5 0) (t' + 1)).validLen = t' + 1) :=
  finished_beams_frozen witDec ⟨2, 0, 3, 0, 5⟩ 5 0 id id 1 0 (fun _ => 0)
    (initSBeam 5 0) 1 2 (by decide)

instance {σ : Type} : IsTotal (ℕ × Cand σ) candOrder :=
  ⟨fun a b => by
    unfold candOrder
    rcases lt_trichotomy a.2.cscore b.2.cscore with h | h | h
    · exact Or.inr (Or.inl h)
    · rcases le_total a.1 b.1 with h2 | h2
      · exact Or.inl (Or.inr ⟨h, h2⟩)
      · exact Or.inr (Or.inr ⟨h.symm, h2⟩)
    · exact Or.inl (Or.inl h)⟩

instance {σ : Type} : IsTrans (ℕ × Cand σ) candOrder :=
  ⟨fun a b c hab hbc => by
    unfold candOrder at *
    rcases hab with h1 | ⟨e1, l1⟩ <;> rcases hbc with h2 | ⟨e2, l2⟩
    · exact Or.inl (h2.trans h1)
    · exact Or.inl (by rw [← e2]; exact h1)
    · exact Or.inl (by rw [e1]; exact h2)
    · exact Or.inr ⟨e1.trans e2, l1.trans l2⟩⟩

/-- C6 (amended): at a beam-search step with a nonempty live set of `c`
hypotheses and a decoder emitting `V` vocabulary scores, exactly `c × V`
candidates are formed; every candidate extends a live hypothesis by one
token with its combined score computed by the scorer; the selection keeps
the top `beam_size - |finished pool|` candidates — not `beam_size` when
beams have already finished — by combined score descending with first-seen
tie-breaking (every kept candidate ranks no lower than every discarded
one); and the selected candidates not emitting end-of-sequence become the
new live set, entirely replacing the previous one. -/
theorem beamStep_selection_amended {σ : Type} (dec : Decoder σ)
    (cfg : BSConfig) (t : ℕ) (s : BSState σ) (V : ℕ)
    (hne : s.live ≠ [])
    (hV : ∀ h ∈ s.live, (dec.step h.cur h.st).1.length = V) :
    (stepCands dec cfg t s).length = s.live.length * V
      ∧ (∀ c ∈ stepCands dec cfg t s, ∃ hp ∈ s.live,
          ∃ p ∈ (dec.step hp.cur hp.st).1.enum,
            c.seq = hp.seq ++ [p.1]
              ∧ c.cscore = beamSearchScorer cfg.alpha cfg.Kc hp.raw p.2 t)
      ∧ (selectTop (cfg.beam_size - s.pool.length) (stepCands dec cfg t s)).length
          = min (cfg.beam_size - s.pool.length) (s.live.length * V)
      ∧ (∀ a ∈ ((stepCands dec cfg t s).enum.insertionSort candOrder).take
            (cfg.beam_size - s.pool.length),
          ∀ b ∈ ((stepCands dec cfg t s).enum.insertionSort candOrder).drop
            (cfg.beam_size - s.pool.length),
            candOrder a b)
      ∧ (beamStep dec cfg t s).live
          = ((selectTop (cfg.beam_size - s.pool.length) (stepCands dec cfg t s)).filter
              (fun c => !(c.tok == cfg.eos_id))).map candToHyp := by
  have hcount : (stepCands dec cfg t s).length = s.live.length * V := by
    unfold stepCands
    have haux : ∀ l : List (Hyp σ),
        (∀ h ∈ l, (dec.step h.cur h.st).1.length = V) →
        (l.flatMap (expandHyp dec cfg.alpha cfg.Kc t)).length = l.length * V := by
      intro l hl
      induction l with
      | nil => simp
      | cons a tl ih =>
        simp only [List.flatMap_cons, List.length_append, length_expandHyp,
          List.length_cons]
        rw [hl a (by simp), ih (fun h hh => hl h (by simp [hh]))]
        ring
    exact haux s.live hV
  refine ⟨hcount, ?_, ?_, ?_, ?_⟩
  · intro c hc
    obtain ⟨hp, hhp, p, hpm, hseq, _, _, hcs, _⟩ := mem_stepCands hc
    exact ⟨hp, hhp, p, hpm, hseq, hcs⟩
  · rw [selectTop_length, hcount]
  · intro a ha b hb
    have hs := List.sorted_insertionSort candOrder ((stepCands dec cfg t s).enum)
    have hp : List.Pairwise candOrder
        ((((stepCands dec cfg t s).enum.insertionSort candOrder).take
            (cfg.beam_size - s.pool.length))
          ++ (((stepCands dec cfg t s).enum.insertionSort candOrder).drop
            (cfg.beam_size - s.pool.length))) := by
      rw [List.take_append_drop]
      exact hs
    exact (List.pairwise_append.mp hp).2.2 a ha b hb
  · rw [beamStep_of_ne dec cfg t s hne]

/-- Witness for the amended C6 at a concrete step. -/
theorem beamStep_selection_amended_witness :
    (stepCands witDec ⟨2, 0, 3, 0, 5⟩ 1 (beamInit 5 0)).length
        = (beamInit (σ := ℕ) 5 0).live.length * 2
      ∧ (∀ c ∈ stepCands witDec ⟨2, 0, 3, 0, 5⟩ 1 (beamInit 5 0),
          ∃ hp ∈ (beamInit (σ := ℕ) 5 0).live,
          ∃ p ∈ (witDec.step hp.cur hp.st).1.enum,
            c.seq = hp.seq ++ [p.1]
              ∧ c.cscore = beamSearchScorer 0 5 hp.raw p.2 1)
      ∧ (selectTop (2 - (beamInit (σ := ℕ) 5 0).pool.length)
            (stepCands witDec ⟨2, 0, 3, 0, 5⟩ 1 (beamInit 5 0))).length
          = min (2 - (beamInit (σ := ℕ) 5 0).pool.length)
              ((beamInit (σ := ℕ) 5 0).live.length * 2)
      ∧ (∀ a ∈ ((stepCands witDec ⟨2, 0, 3, 0, 5⟩ 1 (beamInit 5 0)).enum.insertionSort
            candOrder).take (2 - (beamInit (σ := ℕ) 5 0).pool.length),
          ∀ b ∈ ((stepCands witDec ⟨2, 0, 3, 0, 5⟩ 1 (beamInit 5 0)).enum.insertionSort
            candOrder).drop (2 - (beamInit (σ := ℕ) 5 0).pool.length),
            candOrder a b)
      ∧ (beamStep witDec ⟨2, 0, 3, 0, 5⟩ 1 (beamInit 5 0)).live
          = ((selectTop (2 - (beamInit (σ := ℕ) 5 0).pool.length)
                (stepCands witDec ⟨2, 0, 3, 0, 5⟩ 1 (beamInit 5 0))).filter
              (fun c => !(c.tok == 0))).map candToHyp :=
  beamStep_selection_amended witDec ⟨2, 0, 3, 0, 5⟩ 1 (beamInit 5 0) 2
    (by simp [beamInit]) (by intro h hh; rfl)

/-- The decoder of the C6 counterexample: constant logits favouring token
`1`, which is the end-of-sequence id of `c6cfg`. -/
def c6dec : Decoder ℕ := ⟨fun _ _ => ([0, 10], 0)⟩

/-- The configuration of the C6 counterexample: width 2, end-of-sequence
id 1, no length normalization. -/
def c6cfg : BSConfig := ⟨2, 1, 3, 0, 5⟩

/-- The beam-search state after one step of the C6 counterexample run: one
beam finished at step 1 (it emitted the end-of-sequence id), one beam
live. -/
def c6s1 : BSState ℕ := beamRun c6dec c6cfg (beamInit 0 0) 1

/-- C6 is false as stated: at step 2 of this run one live beam remains
(`c = 1 ≤ K = 2`) and `c × V = 2` candidates are formed, but only
`K - |pool| = 1` candidate — not `K = 2` — is selected, so the set that
replaces the live set does not consist of the `K` highest-scoring
candidates. -/
theorem beamStep_not_topK_counterexample :
    c6cfg.beam_size = 2
      ∧ c6s1.live.length = 1
      ∧ c6s1.pool.length = 1
      ∧ (stepCands c6dec c6cfg 2 c6s1).length = 2
      ∧ (selectTop (c6cfg.beam_size - c6s1.pool.length)
          (stepCands c6dec c6cfg 2 c6s1)).length = 1
      ∧ (beamStep c6dec c6cfg 2 c6s1).live.length
          + ((beamStep c6dec c6cfg 2 c6s1).pool.length - c6s1.pool.length) = 1 := by
  refine ⟨rfl, ?_, ?_, ?_, ?_, ?_⟩ <;>
    norm_num [c6s1, c6dec, c6cfg, beamRun, beamStep, beamInit, stepCands,
      expandHyp, selectTop, beamSearchScorer, length_penalty, candOrder,
      candToHyp, candToFin, List.insertionSort, List.orderedInsert,
      List.enum, List.enumFrom]

/-- C10: every sample returned by either sampler begins with the seed token
handed to it, and `generate` displays, for each shown result, exactly the
prompt ids followed by the sample truncated at its valid length with its
first token — the seed — removed. -/
theorem samples_start_with_seed_and_generate_drops_it {σ : Type}
    (rngs : ℕ → ℕ → ℚ) (dec : Decoder σ) (cfg : BSConfig) (e lg : ℚ → ℚ)
    (B : ℕ) (temp2 : ℚ) (eos2 : Token) (L : ℕ) (rngs2 : ℕ → ℕ → ℚ)
    (seed : Token) (st : σ) (net : Net σ) (bos_ids : List Token)
    (temperature u : ℚ)
    (sampler : Token → σ → List (List Token) × List ℚ × List ℕ)
    (n i : ℕ) (hin : i < n) :
    (∀ sq ∈ (beamSearchSampler rngs dec cfg seed st).1, sq.head? = some seed)
      ∧ (∀ sq ∈ (sequenceSampler dec e lg B temp2 eos2 L rngs2 seed st).1,
          sq.head? = some seed)
      ∧ ((generate net e bos_ids temperature sampler n u).getD i ([], 0)
          = (bos_ids
              ++ (((sampler (get_initial_input_state net e bos_ids temperature u).1
                      (get_initial_input_state net e bos_ids temperature u).2).1.getD i []).take
                  ((sampler (get_initial_input_state net e bos_ids temperature u).1
                      (get_initial_input_state net e bos_ids temperature u).2).2.2.getD i 0)).drop 1,
             (sampler (get_initial_input_state net e bos_ids temperature u).1
                (get_initial_input_state net e bos_ids temperature u).2).2.1.getD i 0)) := by
  refine ⟨?_, ?_, ?_⟩
  · intro sq hsq
    simp only [beamSearchSampler, List.mem_map, beamSearchResults] at hsq
    obtain ⟨f, hf, rfl⟩ := hsq
    have hf2 : f ∈ forceFinish cfg.max_length
        (beamRun dec cfg (beamInit seed st) cfg.max_length) := by
      simpa using hf
    simp only [forceFinish, List.mem_append, List.mem_map] at hf2
    rcases hf2 with hp | ⟨h, hh, rfl⟩
    · exact ((beamRun_inv dec cfg seed st cfg.max_length).1 f hp).2.2.2
    · exact ((beamRun_inv dec cfg seed st cfg.max_length).2 h hh).1
  · intro sq hsq
    simp only [sequenceSampler, List.map_map, List.mem_map, List.mem_range] at hsq
    obtain ⟨j, _, hj⟩ := hsq
    rw [← hj]
    exact seqRun_head dec e lg temp2 eos2 (rngs2 j) (initSBeam seed st) seed rfl L
  · simp only [generate]
    rw [List.getD_eq_getElem?_getD]
    simp [List.getElem?_map, List.getElem?_range hin]

/-- A stub sampler with fixed output, used only by the C10 witness. -/
def c10sampler : Token → ℕ → List (List Token) × List ℚ × List ℕ :=
  fun _ _ => ([[9, 6]], [3], [2])

/-- Witness for C10 at concrete inputs. -/
theorem samples_start_with_seed_witness :
    (∀ sq ∈ (beamSearchSampler (fun _ _ => 0) witDec ⟨2, 0, 3, 0, 5⟩ 5 0).1,
        sq.head? = some 5)
      ∧ (∀ sq ∈ (sequenceSampler witDec id id 1 1 0 1 (fun _ _ => 0) 5 0).1,
          sq.head? = some 5)
      ∧ ((generate c8net id [0] 1 c10sampler 1 0).getD 0 ([], 0)
          = ([0]
              ++ (((c10sampler (get_initial_input_state c8net id [0] 1 0).1
                      (get_initial_input_state c8net id [0] 1 0).2).1.getD 0 []).take
                  ((c10sampler (get_initial_input_state c8net id [0] 1 0).1
                      (get_initial_input_state c8net id [0] 1 0).2).2.2.getD 0 0)).drop 1,
             (c10sampler (get_initial_input_state c8net id [0] 1 0).1
                (get_initial_input_state c8net id [0] 1 0).2).2.1.getD 0 0)) :=
  samples_start_with_seed_and_generate_drops_it (fun _ _ => 0) witDec
    ⟨2, 0, 3, 0, 5⟩ id id 1 1 0 1 (fun _ _ => 0) 5 0 c8net [0] 1 0
    c10sampler 1 0 (by decide)

end SeqGen
